import Mathlib

/-!
# Verification of `flight_schedule_gen.py` (`FlightScheduleGen.generate`)

Shallow embedding of the flight-schedule demand-graph generator.  The
Python program builds a `networkx.DiGraph` in phases:

1. `generate` draws the two external-node counts with
   `np.random.geometric(p_geom_external, size=2)`;
2. `_generate_nodes` creates inbound nodes `in_1 .. in_{nf+ne}` and
   outbound nodes `out_1 .. out_{nf+ne}` with sampled locations and
   uniform-[0,24) times (the flight prefix gets random gates, the
   external suffix the hub location `"WH"`);
3. `_assign_external_nodes` attaches each external node to one randomly
   chosen flight node on the opposite side (capacity 1, weight -1);
4. `_generate_forward_connections` samples, for every (inbound flight,
   outbound flight) pair with distinct gates, a demand
   `np.random.geometric(p_geom_connect) - 1` and adds an edge when the
   demand is nonzero, accumulating `total_demand`;
5. `_adjust_flight_times` folds over `G.edges` (every edge present at
   that point), max-updating the target's time with
   `t_arrival + t_escort + np.random.exponential(mean)`, and, when the
   result reaches 24, shifting both endpoint times down by the overage;
6. `_generate_backward_connections` adds a reuse edge
   `(out, in)` whenever `t_arrival > t_departure + t_escort`;
7. `_add_s_and_t` wires the source `s`, sink `t` and the `t -> s` edge
   with weight 0.

Randomness is modelled by oracle inputs placed in `GenInput`: each numpy
sampling call site reads a dedicated oracle field, and the sampling
primitive's parameter validation (numpy raises `ValueError` for a
geometric `p` outside (0,1] and for a negative exponential scale, and
`np.random.choice` raises on an empty candidate list) is modelled with
`Except`.  A numpy geometric draw has support {1, 2, ...}; we model it
as `k + 1` where `k` is the oracle value.  An exponential draw with
scale `m` is `m * x` where `x >= 0` is an oracle-supplied standard
exponential value.  Uniform-[0,24) draws are oracle values and theorems
that need it hypothesise `0 <= x < 24`.

Node names: inbound nodes are indexed `0 .. n_flights_in + nExtIn - 1`
(flights first, externals after, exactly as in `_generate_nodes`), and
likewise for outbound nodes; `NodeId` tags the four namespaces `inn`,
`out`, `s`, `t`.  Every edge present during the adjustment pass runs
from an inbound node to an outbound node, so the pass state keeps the
two time maps separately (`AdjState.tin`, `AdjState.tout`); this mirrors
the disjoint `in_*` / `out_*` name spaces of the Python graph.
-/

namespace FSG

/-- Locations are strings; the wheelchair hub is `"WH"`. -/
abbrev Loc := String

/-- `PACE = 54.4804182335`, the constant from the source file. -/
def PACE : ℚ := 54.4804182335

/-- Node identifiers of the generated digraph: `inn i` is `in_{i+1}`,
`out j` is `out_{j+1}`, plus the synthetic source and sink. -/
inductive NodeId where
  | inn (i : ℕ)
  | out (j : ℕ)
  | s
  | t
deriving DecidableEq, Repr

/-- Edge attributes as stored by the Python code: `t_escort` and
`capacity` are present only on some edges, `weight` always is. -/
structure Attrs where
  t_escort : Option ℚ
  capacity : Option ℕ
  weight : ℤ
deriving DecidableEq, Repr

/-- An edge present before the adjustment pass (external or connection
edge): source and target indices into the inbound resp. outbound node
lists, the stored `t_escort`, and the stored `capacity`. -/
structure PEdge where
  src : ℕ
  tgt : ℕ
  esc : ℚ
  cap : ℕ
deriving DecidableEq, Repr

/-- All inputs of one `generate` run: the five parameters plus one
oracle field per numpy sampling call site. -/
structure GenInput where
  n_flights_in : ℕ
  n_flights_out : ℕ
  p_geom_connect : ℚ
  p_geom_external : ℚ
  mean_connecting_wait_time : ℚ
  /-- oracle for `np.random.geometric(p_geom_external, size=2)[0]`:
  the draw is `kExtIn + 1` (numpy geometric support is {1, 2, ...}). -/
  kExtIn : ℕ
  /-- oracle for the second component of the same call. -/
  kExtOut : ℕ
  /-- oracle for the gates drawn by `np.random.choice` for inbound
  flight `i` in `_generate_nodes(incoming=True)`. -/
  inLoc : ℕ → Loc
  /-- oracle for the gates of the outbound flights. -/
  outLoc : ℕ → Loc
  /-- oracle for `np.random.uniform(0, 24, ...)` for inbound node `i`. -/
  inTime : ℕ → ℚ
  /-- oracle for the outbound node times. -/
  outTime : ℕ → ℚ
  /-- oracle for `np.random.choice(flight_nodes)` for inbound external
  `e` (taken modulo the flight count, as numpy picks a valid index). -/
  extInChoice : ℕ → ℕ
  /-- oracle for the choice made for outbound external `e`. -/
  extOutChoice : ℕ → ℕ
  /-- oracle for `np.random.geometric(p_geom_connect)` at the pair
  `(i, j)`: the draw is `demandK i j + 1`. -/
  demandK : ℕ → ℕ → ℕ
  /-- oracle for the standard-exponential factor of the
  `np.random.exponential(mean)` draw consumed while processing the edge
  `(in_i, out_j)`; every edge is processed at most once, so indexing the
  draws by edge is a relabelling of the consumption order. -/
  waitX : ℕ → ℕ → ℚ
  /-- the airport topology's shortest-path oracle,
  `nx.shortest_path_length(G_airport, a, b, weight='weight')`. -/
  dist : Loc → Loc → ℚ

/-- Result of a successful `generate` run: node counts, final times,
and the edge lists of each construction phase. -/
structure GenOut where
  n_flights_in : ℕ
  n_flights_out : ℕ
  nExtIn : ℕ
  nExtOut : ℕ
  tin : ℕ → ℚ
  tout : ℕ → ℚ
  extF : List PEdge
  extB : List PEdge
  conn : List PEdge
  reuse : List (ℕ × ℕ)
  total_demand : ℕ
deriving Inhabited

/-- Number of inbound nodes (flights then externals). -/
def GenOut.inN (g : GenOut) : ℕ := g.n_flights_in + g.nExtIn

/-- Number of outbound nodes. -/
def GenOut.outN (g : GenOut) : ℕ := g.n_flights_out + g.nExtOut

/-- Location attribute of inbound node `i`: a sampled gate for the
flight prefix, the hub `"WH"` for the external suffix
(`_generate_nodes`: `locations = gates + ['WH'] * n_external`). -/
def inLocF (inp : GenInput) (i : ℕ) : Loc :=
  if i < inp.n_flights_in then inp.inLoc i else "WH"

/-- Location attribute of outbound node `j`. -/
def outLocF (inp : GenInput) (j : ℕ) : Loc :=
  if j < inp.n_flights_out then inp.outLoc j else "WH"

/-- `np.random.geometric(p)`: validates `0 < p <= 1` (numpy raises
`ValueError` otherwise) and returns `k + 1`, `k` the oracle value. -/
def npGeometric (p : ℚ) (k : ℕ) : Except String ℕ :=
  if 0 < p ∧ p ≤ 1 then .ok (k + 1) else .error "geometric: p out of range"

/-- `_assign_external_nodes(forward=True)`: for each inbound external
`e`, pick an outbound flight (`np.random.choice`, which raises on an
empty list), and add an edge external -> flight with `capacity=1`,
`weight=-1`, and `t_escort = dist('WH', gate) / PACE`. -/
def extForwardM (inp : GenInput) (nEI : ℕ) : Except String (List PEdge) :=
  (List.range nEI).foldlM (fun acc e =>
    if inp.n_flights_out = 0 then .error "choice: a must be non-empty"
    else
      let f := inp.extInChoice e % inp.n_flights_out
      .ok (acc ++ [⟨inp.n_flights_in + e, f, inp.dist "WH" (outLocF inp f) / PACE, 1⟩])) []

/-- `_assign_external_nodes(forward=False)`: for each outbound external
`e`, pick an inbound flight and add an edge flight -> external. -/
def extBackwardM (inp : GenInput) (nEO : ℕ) : Except String (List PEdge) :=
  (List.range nEO).foldlM (fun acc e =>
    if inp.n_flights_in = 0 then .error "choice: a must be non-empty"
    else
      let f := inp.extOutChoice e % inp.n_flights_in
      .ok (acc ++ [⟨f, inp.n_flights_out + e, inp.dist "WH" (inLocF inp f) / PACE, 1⟩])) []

/-- The `itertools.product(in_flight_nodes, out_flight_nodes)` pair list
in iteration order (outer index first). -/
def flightPairs (inp : GenInput) : List (ℕ × ℕ) :=
  (List.range inp.n_flights_in).flatMap
    (fun i => (List.range inp.n_flights_out).map (fun j => (i, j)))

/-- One iteration of `_generate_forward_connections`: skip same-gate
pairs before sampling, sample `geometric(p_geom_connect) - 1`, skip
zero demand, otherwise accumulate `total_demand` and append the edge. -/
def connStepM (inp : GenInput) (acc : List PEdge × ℕ) (ij : ℕ × ℕ) :
    Except String (List PEdge × ℕ) :=
  if inLocF inp ij.1 = outLocF inp ij.2 then .ok acc
  else do
    let gsample ← npGeometric inp.p_geom_connect (inp.demandK ij.1 ij.2)
    let d := gsample - 1
    if d = 0 then .ok acc
    else
      .ok (acc.1 ++ [⟨ij.1, ij.2, inp.dist (inLocF inp ij.1) (outLocF inp ij.2) / PACE, d⟩],
           acc.2 + d)

/-- `_generate_forward_connections`, returning the connection-edge list
and the demand accumulated into `total_demand`. -/
def connM (inp : GenInput) : Except String (List PEdge × ℕ) :=
  (flightPairs inp).foldlM (connStepM inp) ([], 0)

/-- The node-time state of the adjustment pass.  Every edge present at
that point runs from an `in_*` node to an `out_*` node, so the inbound
and outbound time maps never alias. -/
structure AdjState where
  tin : ℕ → ℚ
  tout : ℕ → ℚ

/-- Pointwise update of a time map. -/
def upd (f : ℕ → ℚ) (i : ℕ) (v : ℚ) : ℕ → ℚ :=
  fun j => if j = i then v else f j

/-- One iteration of the `_adjust_flight_times` loop body on edge `e`,
with `X e.src e.tgt` the value of the `np.random.exponential` draw:
`t_departure = max(t_departure, t_arrival + t_escort + X)`, then, if
`t_departure >= 24`, both endpoint times are shifted down by
`delta = t_departure - 24`; both node times are written back. -/
def adjustStep (X : ℕ → ℕ → ℚ) (st : AdjState) (e : PEdge) : AdjState :=
  let ta := st.tin e.src
  let td := st.tout e.tgt
  let td1 := max td (ta + e.esc + X e.src e.tgt)
  if 24 ≤ td1 then
    { tin := upd st.tin e.src (ta - (td1 - 24)),
      tout := upd st.tout e.tgt (td1 - (td1 - 24)) }
  else
    { tin := upd st.tin e.src ta, tout := upd st.tout e.tgt td1 }

/-- The whole `_adjust_flight_times` pass over an edge list. -/
def adjustFold (X : ℕ → ℕ → ℚ) (st : AdjState) (l : List PEdge) : AdjState :=
  l.foldl (adjustStep X) st

/-- `_adjust_flight_times` as run by `generate`: each iteration draws
`np.random.exponential(mean_connecting_wait_time)`, which raises for a
negative scale and equals `mean * x` with `x` the oracle's standard
exponential factor. -/
def adjustM (inp : GenInput) (st : AdjState) (l : List PEdge) :
    Except String AdjState :=
  l.foldlM (fun st e =>
    if 0 ≤ inp.mean_connecting_wait_time then
      .ok (adjustStep (fun i j => inp.mean_connecting_wait_time * inp.waitX i j) st e)
    else .error "exponential: scale < 0") st

/-- Iteration order of `self.G.edges` before the adjustment pass: the
digraph reports edges grouped by source node in node-insertion order
(all inbound nodes precede all outbound ones, and outbound nodes have
no outgoing edges yet), each group in adjacency-insertion order, i.e.
the order of `pre` restricted to that source. -/
def nxOrder (inN : ℕ) (pre : List PEdge) : List PEdge :=
  (List.range inN).flatMap (fun i => pre.filter (fun e => e.src = i))

/-- `_generate_backward_connections`: over the full
`product(in_nodes, out_nodes)`, add the reuse edge `(out j, in i)` iff
`t_arrival > t_departure + dist(out_loc, in_loc) / PACE`. -/
def reuseList (inp : GenInput) (nEI nEO : ℕ) (tinF toutF : ℕ → ℚ) :
    List (ℕ × ℕ) :=
  ((List.range (inp.n_flights_in + nEI)).flatMap
    (fun i => (List.range (inp.n_flights_out + nEO)).map (fun j => (i, j)))).filterMap
    (fun ij =>
      if toutF ij.2 + inp.dist (outLocF inp ij.2) (inLocF inp ij.1) / PACE < tinF ij.1
      then some (ij.2, ij.1) else none)

/-- `FlightScheduleGen.generate`: the full pipeline.  `total_demand`
starts at 0, receives `n_external_in + n_external_out` right after the
external-count draw, and then the forward-connection demands.  The
final times are the adjustment pass's output; the backward-connection
and source/sink phases read but never write them. -/
def generate (inp : GenInput) : Except String GenOut := do
  let nEI ← npGeometric inp.p_geom_external inp.kExtIn
  let nEO ← npGeometric inp.p_geom_external inp.kExtOut
  let extF ← extForwardM inp nEI
  let extB ← extBackwardM inp nEO
  let connRes ← connM inp
  let st0 : AdjState := { tin := inp.inTime, tout := inp.outTime }
  let stF ← adjustM inp st0 (nxOrder (inp.n_flights_in + nEI) (extF ++ extB ++ connRes.1))
  pure {
    n_flights_in := inp.n_flights_in
    n_flights_out := inp.n_flights_out
    nExtIn := nEI
    nExtOut := nEO
    tin := stF.tin
    tout := stF.tout
    extF := extF
    extB := extB
    conn := connRes.1
    reuse := reuseList inp nEI nEO stF.tin stF.tout
    total_demand := nEI + nEO + connRes.2 }

/-- The produced digraph's edge list with full attributes, in insertion
order: external edges, forward connections, reuse edges, then the
source/sink wiring of `_add_s_and_t` (`s -> in`, `out -> t`, `t -> s`,
all with `weight=0` and no other attribute).  All inserted (source,
target) pairs are pairwise distinct, so this list is exactly the edge
set of the `networkx.DiGraph`. -/
def allEdges (g : GenOut) : List (NodeId × NodeId × Attrs) :=
  g.extF.map (fun e => (.inn e.src, .out e.tgt, ⟨some e.esc, some e.cap, -1⟩))
  ++ g.extB.map (fun e => (.inn e.src, .out e.tgt, ⟨some e.esc, some e.cap, -1⟩))
  ++ g.conn.map (fun e => (.inn e.src, .out e.tgt, ⟨some e.esc, some e.cap, -1⟩))
  ++ g.reuse.map (fun p => (.out p.1, .inn p.2, ⟨none, none, -1⟩))
  ++ (List.range g.inN).map (fun i => (.s, .inn i, ⟨none, none, 0⟩))
  ++ (List.range g.outN).map (fun j => (.out j, .t, ⟨none, none, 0⟩))
  ++ [(.t, .s, ⟨none, none, 0⟩)]

/-- The graph part of a run result, `default` on failure. -/
def okOut (r : Except String GenOut) : GenOut :=
  match r with
  | .ok g => g
  | .error _ => default


/-- Concrete run used by witnesses and counterexamples: two inbound
flights at gates `"A"`, `"B"`, one outbound flight at gate `"B"`, one
external node on each side (`kExtIn = kExtOut = 0`), and a distance
oracle that is constantly 0.  The standard-exponential factor drawn for
the edge `(in_1, out_2)` is 60, so the sampled wait is `0.5 * 60 = 30`
hours and the `>= 24` shift of `_adjust_flight_times` fires on that
edge: the outbound external's time becomes exactly 24 and the inbound
flight's time becomes `-6`. -/
def traceA : GenInput where
  n_flights_in := 2
  n_flights_out := 1
  p_geom_connect := 0.9
  p_geom_external := 0.1
  mean_connecting_wait_time := 0.5
  kExtIn := 0
  kExtOut := 0
  inLoc := fun i => if i = 0 then "A" else "B"
  outLoc := fun _ => "B"
  inTime := fun i => if i = 0 then 10 else if i = 1 then 7 else 5
  outTime := fun j => if j = 0 then 1 else 2
  extInChoice := fun _ => 0
  extOutChoice := fun _ => 0
  demandK := fun i j => if i = 0 ∧ j = 0 then 1 else 0
  waitX := fun i j => if i = 0 ∧ j = 1 then 60 else 0
  dist := fun _ _ => 0

/-- `traceA` with `mean_connecting_wait_time = 0`, a non-positive wait
parameter: `np.random.exponential(0.0)` is accepted by numpy (only a
negative scale raises), so the run completes. -/
def traceB : GenInput := { traceA with mean_connecting_wait_time := 0 }

/-- `traceA` with `p_geom_external = 2`, outside `(0, 1]`. -/
def traceC : GenInput := { traceA with p_geom_external := 2 }

/-- Adjustment-pass offsets for the order-dependence counterexample:
the draw consumed for the edge `(in_1, out_1)` is 2, all others 0. -/
def c3X : ℕ → ℕ → ℚ := fun i j => if i = 0 ∧ j = 0 then 2 else 0

/-- Start state for the order-dependence counterexample: every inbound
time is 23, every outbound time is 1. -/
def c3st : AdjState := ⟨fun _ => 23, fun _ => 1⟩

/-- Edge `in_1 -> out_1` with escort time 1. -/
def c3e1 : PEdge := ⟨0, 0, 1, 1⟩

/-- Edge `in_1 -> out_2` with escort time 1. -/
def c3e2 : PEdge := ⟨0, 1, 1, 1⟩

/-- Start state for the order-independence witness: inbound times 3,
outbound times 1, so no candidate departure reaches 24. -/
def c3stW : AdjState := ⟨fun _ => 3, fun _ => 1⟩

/-- All-zero offsets for the order-independence witness. -/
def c3XW : ℕ → ℕ → ℚ := fun _ _ => 0

/-! ## Infrastructure lemmas -/

theorem bind_ok {α β : Type} {x : Except String α} {f : α → Except String β} {b : β} :
    (x >>= f) = .ok b ↔ ∃ a, x = .ok a ∧ f a = .ok b := by
  cases x <;> simp [Bind.bind, Except.bind]

theorem npGeometric_ok {p : ℚ} {k n : ℕ} (h : npGeometric p k = .ok n) :
    (0 < p ∧ p ≤ 1) ∧ n = k + 1 := by
  unfold npGeometric at h
  split at h
  · exact ⟨‹_›, (Except.ok.injEq _ _).mp h |>.symm⟩
  · exact absurd h (by simp)

/-- Inversion of a successful `generate` run into its phases. -/
theorem generate_ok {inp : GenInput} {g : GenOut} (h : generate inp = .ok g) :
    ∃ extF extB conn cd stF,
      (0 < inp.p_geom_external ∧ inp.p_geom_external ≤ 1) ∧
      extForwardM inp (inp.kExtIn + 1) = .ok extF ∧
      extBackwardM inp (inp.kExtOut + 1) = .ok extB ∧
      connM inp = .ok (conn, cd) ∧
      adjustM inp ⟨inp.inTime, inp.outTime⟩
        (nxOrder (inp.n_flights_in + (inp.kExtIn + 1)) (extF ++ extB ++ conn)) = .ok stF ∧
      g = { n_flights_in := inp.n_flights_in
            n_flights_out := inp.n_flights_out
            nExtIn := inp.kExtIn + 1
            nExtOut := inp.kExtOut + 1
            tin := stF.tin
            tout := stF.tout
            extF := extF
            extB := extB
            conn := conn
            reuse := reuseList inp (inp.kExtIn + 1) (inp.kExtOut + 1) stF.tin stF.tout
            total_demand := (inp.kExtIn + 1) + (inp.kExtOut + 1) + cd } := by
  unfold generate at h
  rw [bind_ok] at h
  obtain ⟨nEI, hEI, h⟩ := h
  rw [bind_ok] at h
  obtain ⟨nEO, hEO, h⟩ := h
  rw [bind_ok] at h
  obtain ⟨extF, hF, h⟩ := h
  rw [bind_ok] at h
  obtain ⟨extB, hB, h⟩ := h
  rw [bind_ok] at h
  obtain ⟨connRes, hC, h⟩ := h
  rw [bind_ok] at h
  obtain ⟨stF, hA, h⟩ := h
  obtain ⟨hprange, hnEI⟩ := npGeometric_ok hEI
  obtain ⟨-, hnEO⟩ := npGeometric_ok hEO
  subst hnEI hnEO
  obtain ⟨conn, cd⟩ := connRes
  refine ⟨extF, extB, conn, cd, stF, hprange, hF, hB, hC, hA, ?_⟩
  exact ((Except.ok.injEq _ _).mp h).symm

/-- With a non-negative exponential scale, `adjustM` succeeds and
computes the pure fold `adjustFold`. -/
theorem adjustM_eq_ok {inp : GenInput} (hm : 0 ≤ inp.mean_connecting_wait_time)
    (st : AdjState) (l : List PEdge) :
    adjustM inp st l =
      .ok (adjustFold (fun i j => inp.mean_connecting_wait_time * inp.waitX i j) st l) := by
  induction l generalizing st with
  | nil => rfl
  | cons e l ih =>
    unfold adjustM at ih ⊢
    rw [List.foldlM_cons, if_pos hm]
    exact ih (adjustStep _ st e)

/-- A successful `adjustM` run computes the pure fold `adjustFold`. -/
theorem adjustM_ok {inp : GenInput} {st st' : AdjState} {l : List PEdge}
    (h : adjustM inp st l = .ok st') :
    st' = adjustFold (fun i j => inp.mean_connecting_wait_time * inp.waitX i j) st l := by
  rcases l with - | ⟨e, l⟩
  · exact ((Except.ok.injEq _ _).mp h).symm
  · by_cases hm : 0 ≤ inp.mean_connecting_wait_time
    · rw [adjustM_eq_ok hm] at h
      exact ((Except.ok.injEq _ _).mp h).symm
    · unfold adjustM at h
      rw [List.foldlM_cons, if_neg hm] at h
      exact absurd h (by simp [Bind.bind, Except.bind])

/-! ## The adjustment pass: pointwise action, bounds, monotonicity -/

theorem upd_apply (f : ℕ → ℚ) (i j : ℕ) (v : ℚ) :
    upd f i v j = if j = i then v else f j := rfl

/-- Action of one loop iteration on the inbound time map: the source's
time drops by the overage `max (td1 - 24) 0`, other entries are kept. -/
theorem adjustStep_tin (X : ℕ → ℕ → ℚ) (st : AdjState) (e : PEdge) (i : ℕ) :
    (adjustStep X st e).tin i =
      if i = e.src then
        st.tin e.src -
          max (max (st.tout e.tgt) (st.tin e.src + e.esc + X e.src e.tgt) - 24) 0
      else st.tin i := by
  unfold adjustStep
  by_cases h : 24 ≤ max (st.tout e.tgt) (st.tin e.src + e.esc + X e.src e.tgt)
  · rw [if_pos h]
    show upd st.tin e.src _ i = _
    rw [upd_apply]
    rcases eq_or_ne i e.src with h2 | h2
    · have h0 : (0:ℚ) ≤
          max (st.tout e.tgt) (st.tin e.src + e.esc + X e.src e.tgt) - 24 := by linarith
      rw [if_pos h2, if_pos h2, max_eq_left h0]
    · rw [if_neg h2, if_neg h2]
  · rw [if_neg h]
    show upd st.tin e.src _ i = _
    rw [upd_apply]
    rcases eq_or_ne i e.src with h2 | h2
    · have h0 : max (st.tout e.tgt) (st.tin e.src + e.esc + X e.src e.tgt) - 24 ≤
          (0:ℚ) := by linarith
      rw [if_pos h2, if_pos h2, max_eq_right h0]
      ring
    · rw [if_neg h2, if_neg h2]

/-- Action of one loop iteration on the outbound time map: the target's
time becomes `min (max td cand) 24` (the `>= 24` shift lands exactly on
24), other entries are kept. -/
theorem adjustStep_tout (X : ℕ → ℕ → ℚ) (st : AdjState) (e : PEdge) (j : ℕ) :
    (adjustStep X st e).tout j =
      if j = e.tgt then
        min (max (st.tout e.tgt) (st.tin e.src + e.esc + X e.src e.tgt)) 24
      else st.tout j := by
  unfold adjustStep
  by_cases h : 24 ≤ max (st.tout e.tgt) (st.tin e.src + e.esc + X e.src e.tgt)
  · rw [if_pos h]
    show upd st.tout e.tgt _ j = _
    rw [upd_apply]
    rcases eq_or_ne j e.tgt with h2 | h2
    · simp only [h2, ite_true]
      rw [min_eq_right h]
      ring
    · simp [h2]
  · rw [if_neg h]
    show upd st.tout e.tgt _ j = _
    rw [upd_apply]
    rcases eq_or_ne j e.tgt with h2 | h2
    · simp only [h2, ite_true]
      rw [min_eq_left (by linarith)]
    · simp [h2]

theorem adjustStep_tout_le (X : ℕ → ℕ → ℚ) (st : AdjState) (e : PEdge)
    (hB : ∀ j, st.tout j ≤ 24) : ∀ j, (adjustStep X st e).tout j ≤ 24 := by
  intro j
  rw [adjustStep_tout]
  split
  · exact min_le_right _ _
  · exact hB j

theorem adjustStep_tout_mono (X : ℕ → ℕ → ℚ) (st : AdjState) (e : PEdge)
    (hB : ∀ j, st.tout j ≤ 24) (j : ℕ) : st.tout j ≤ (adjustStep X st e).tout j := by
  rw [adjustStep_tout]
  split
  · next h => exact le_min (h ▸ le_max_left _ _) (h ▸ hB j)
  · exact le_refl _

theorem adjustStep_tin_anti (X : ℕ → ℕ → ℚ) (st : AdjState) (e : PEdge) (i : ℕ) :
    (adjustStep X st e).tin i ≤ st.tin i := by
  rw [adjustStep_tin]
  split
  · next h =>
      rw [h]
      have := le_max_right
        (max (st.tout e.tgt) (st.tin e.src + e.esc + X e.src e.tgt) - 24) (0 : ℚ)
      linarith
  · exact le_refl _

/-- After processing an edge, the connection it represents is feasible
with the sampled wait to spare. -/
theorem adjustStep_gap (X : ℕ → ℕ → ℚ) (st : AdjState) (e : PEdge) :
    (adjustStep X st e).tin e.src + e.esc + X e.src e.tgt ≤
      (adjustStep X st e).tout e.tgt := by
  rw [adjustStep_tin, adjustStep_tout, if_pos rfl, if_pos rfl]
  have h1 := le_max_right (st.tout e.tgt) (st.tin e.src + e.esc + X e.src e.tgt)
  rcases le_or_lt 24 (max (st.tout e.tgt) (st.tin e.src + e.esc + X e.src e.tgt)) with h | h
  · rw [min_eq_right h, max_eq_left (by linarith)]
    linarith
  · rw [min_eq_left (by linarith), max_eq_right (by linarith)]
    linarith

theorem adjustFold_tout_le (X : ℕ → ℕ → ℚ) (st : AdjState) (l : List PEdge)
    (hB : ∀ j, st.tout j ≤ 24) : ∀ j, (adjustFold X st l).tout j ≤ 24 := by
  induction l generalizing st with
  | nil => exact hB
  | cons e l ih => exact ih _ (adjustStep_tout_le X st e hB)

theorem adjustFold_tout_mono (X : ℕ → ℕ → ℚ) (st : AdjState) (l : List PEdge)
    (hB : ∀ j, st.tout j ≤ 24) (j : ℕ) : st.tout j ≤ (adjustFold X st l).tout j := by
  induction l generalizing st with
  | nil => exact le_refl _
  | cons e l ih =>
    exact le_trans (adjustStep_tout_mono X st e hB j)
      (ih _ (adjustStep_tout_le X st e hB))

theorem adjustFold_tin_anti (X : ℕ → ℕ → ℚ) (st : AdjState) (l : List PEdge) (i : ℕ) :
    (adjustFold X st l).tin i ≤ st.tin i := by
  induction l generalizing st with
  | nil => exact le_refl _
  | cons e l ih => exact le_trans (ih _) (adjustStep_tin_anti X st e i)

/-- Feasibility after the whole pass: every edge of the processed list
ends with `tin src + esc <= tout tgt`, whatever the processing order,
provided the sampled waits are non-negative and the outbound times
start at most 24. -/
theorem adjustFold_gap (X : ℕ → ℕ → ℚ) (hX : ∀ i j, 0 ≤ X i j)
    (st : AdjState) (hB : ∀ j, st.tout j ≤ 24) (l : List PEdge) (e : PEdge)
    (he : e ∈ l) :
    (adjustFold X st l).tin e.src + e.esc ≤ (adjustFold X st l).tout e.tgt := by
  induction l generalizing st with
  | nil => exact absurd he (List.not_mem_nil e)
  | cons a l ih =>
    have hB1 := adjustStep_tout_le X st a hB
    rcases List.mem_cons.mp he with rfl | he
    · have hgap := adjustStep_gap X st e
      have hmono := adjustFold_tout_mono X _ l hB1 e.tgt
      have hanti := adjustFold_tin_anti X (adjustStep X st e) l e.src
      have hx := hX e.src e.tgt
      show (adjustFold X (adjustStep X st e) l).tin e.src + e.esc ≤
        (adjustFold X (adjustStep X st e) l).tout e.tgt
      linarith
    · exact ih _ hB1 he

/-- Frame property: a node that is the source of no processed edge
keeps its inbound time. -/
theorem adjustFold_tin_frame (X : ℕ → ℕ → ℚ) (st : AdjState) (l : List PEdge) (i : ℕ)
    (hni : ∀ e ∈ l, e.src ≠ i) : (adjustFold X st l).tin i = st.tin i := by
  induction l generalizing st with
  | nil => rfl
  | cons e l ih =>
    have hstep : (adjustStep X st e).tin i = st.tin i := by
      rw [adjustStep_tin, if_neg]
      intro h
      exact hni e (List.mem_cons_self e l) h.symm
    calc (adjustFold X st (e :: l)).tin i
        = (adjustFold X (adjustStep X st e) l).tin i := rfl
      _ = (adjustStep X st e).tin i :=
          ih _ (fun a ha => hni a (List.mem_cons_of_mem e ha))
      _ = st.tin i := hstep

/-- Frame property: a node that is the target of no processed edge
keeps its outbound time. -/
theorem adjustFold_tout_frame (X : ℕ → ℕ → ℚ) (st : AdjState) (l : List PEdge) (j : ℕ)
    (hnj : ∀ e ∈ l, e.tgt ≠ j) : (adjustFold X st l).tout j = st.tout j := by
  induction l generalizing st with
  | nil => rfl
  | cons e l ih =>
    have hstep : (adjustStep X st e).tout j = st.tout j := by
      rw [adjustStep_tout, if_neg]
      intro h
      exact hnj e (List.mem_cons_self e l) h.symm
    calc (adjustFold X st (e :: l)).tout j
        = (adjustFold X (adjustStep X st e) l).tout j := rfl
      _ = (adjustStep X st e).tout j :=
          ih _ (fun a ha => hnj a (List.mem_cons_of_mem e ha))
      _ = st.tout j := hstep

/-! ## Forward-connection phase -/

theorem mem_flightPairs {inp : GenInput} {ij : ℕ × ℕ} :
    ij ∈ flightPairs inp ↔ ij.1 < inp.n_flights_in ∧ ij.2 < inp.n_flights_out := by
  cases ij with
  | mk i j =>
    constructor
    · intro h
      simp only [flightPairs, List.mem_flatMap, List.mem_map, List.mem_range] at h
      obtain ⟨a, ha, b, hb, hab⟩ := h
      obtain ⟨rfl, rfl⟩ := Prod.mk.injEq .. |>.mp hab.symm
      exact ⟨ha, hb⟩
    · intro ⟨hi, hj⟩
      simp only [flightPairs, List.mem_flatMap, List.mem_map, List.mem_range]
      exact ⟨i, hi, j, hj, rfl⟩

theorem connStepM_ok {inp : GenInput} {acc r : List PEdge × ℕ} {ij : ℕ × ℕ}
    (h : connStepM inp acc ij = .ok r) :
    r = acc ∨
      (inLocF inp ij.1 ≠ outLocF inp ij.2 ∧ 1 ≤ inp.demandK ij.1 ij.2 ∧
        r = (acc.1 ++ [⟨ij.1, ij.2, inp.dist (inLocF inp ij.1) (outLocF inp ij.2) / PACE,
              inp.demandK ij.1 ij.2⟩], acc.2 + inp.demandK ij.1 ij.2)) := by
  unfold connStepM at h
  split at h
  · left
    exact ((Except.ok.injEq _ _).mp h).symm
  · next hloc =>
    rw [bind_ok] at h
    obtain ⟨n, hn, h⟩ := h
    obtain ⟨-, rfl⟩ := npGeometric_ok hn
    simp only [Nat.add_sub_cancel] at h
    split at h
    · left
      exact ((Except.ok.injEq _ _).mp h).symm
    · next hd =>
      right
      exact ⟨hloc, by omega, ((Except.ok.injEq _ _).mp h).symm⟩

theorem connFold_ok_sum {inp : GenInput} (l : List (ℕ × ℕ)) (acc r : List PEdge × ℕ)
    (h : l.foldlM (connStepM inp) acc = .ok r)
    (hacc : acc.2 = (acc.1.map PEdge.cap).sum) : r.2 = (r.1.map PEdge.cap).sum := by
  induction l generalizing acc with
  | nil =>
    obtain rfl := (Except.ok.injEq _ _).mp h
    exact hacc
  | cons ij l ih =>
    rw [List.foldlM_cons, bind_ok] at h
    obtain ⟨a, ha, h⟩ := h
    rcases connStepM_ok ha with rfl | ⟨-, -, rfl⟩
    · exact ih _ h hacc
    · refine ih _ h ?_
      simp [hacc]

theorem connFold_ok_mem {inp : GenInput} (l : List (ℕ × ℕ)) (acc r : List PEdge × ℕ)
    (h : l.foldlM (connStepM inp) acc = .ok r) (e : PEdge) (he : e ∈ r.1) :
    e ∈ acc.1 ∨
      ((∃ ij ∈ l, e.src = ij.1 ∧ e.tgt = ij.2) ∧ 1 ≤ e.cap ∧
        inLocF inp e.src ≠ outLocF inp e.tgt ∧
        e.esc = inp.dist (inLocF inp e.src) (outLocF inp e.tgt) / PACE) := by
  induction l generalizing acc with
  | nil =>
    obtain rfl := (Except.ok.injEq _ _).mp h
    exact Or.inl he
  | cons ij l ih =>
    rw [List.foldlM_cons, bind_ok] at h
    obtain ⟨a, ha, h⟩ := h
    rcases connStepM_ok ha with rfl | ⟨hloc, hcap, rfl⟩
    · rcases ih _ h with hm | ⟨⟨ij2, hij2, hst⟩, rest⟩
      · exact Or.inl hm
      · exact Or.inr ⟨⟨ij2, List.mem_cons_of_mem ij hij2, hst⟩, rest⟩
    · rcases ih _ h with hm | ⟨⟨ij2, hij2, hst⟩, rest⟩
      · rcases List.mem_append.mp hm with hm | hm
        · exact Or.inl hm
        · obtain rfl := List.mem_singleton.mp hm
          exact Or.inr ⟨⟨ij, List.mem_cons_self ij l, rfl, rfl⟩, hcap, hloc, rfl⟩
      · exact Or.inr ⟨⟨ij2, List.mem_cons_of_mem ij hij2, hst⟩, rest⟩

/-- Every connection edge produced by `_generate_forward_connections`
joins an inbound flight to an outbound flight at a different gate, has
demand at least 1, and stores the escorted shortest-path time. -/
theorem connM_ok_mem {inp : GenInput} {conn : List PEdge} {cd : ℕ}
    (h : connM inp = .ok (conn, cd)) (e : PEdge) (he : e ∈ conn) :
    e.src < inp.n_flights_in ∧ e.tgt < inp.n_flights_out ∧ 1 ≤ e.cap ∧
      inLocF inp e.src ≠ outLocF inp e.tgt ∧
      e.esc = inp.dist (inLocF inp e.src) (outLocF inp e.tgt) / PACE := by
  rcases connFold_ok_mem _ _ _ h e he with h' | ⟨⟨ij, hij, h1, h2⟩, hcap, hloc, hesc⟩
  · exact absurd h' (List.not_mem_nil e)
  · have hb := mem_flightPairs.mp hij
    exact ⟨h1 ▸ hb.1, h2 ▸ hb.2, hcap, hloc, hesc⟩

/-- The demand accumulated by `_generate_forward_connections` equals
the sum of the capacities of the edges it added. -/
theorem connM_ok_sum {inp : GenInput} {conn : List PEdge} {cd : ℕ}
    (h : connM inp = .ok (conn, cd)) : cd = (conn.map PEdge.cap).sum :=
  connFold_ok_sum _ _ _ h rfl

/-! ## Edge iteration order -/

theorem mem_nxOrder {inN : ℕ} {pre : List PEdge} {e : PEdge} :
    e ∈ nxOrder inN pre ↔ e ∈ pre ∧ e.src < inN := by
  unfold nxOrder
  simp only [List.mem_flatMap, List.mem_range, List.mem_filter, decide_eq_true_eq]
  constructor
  · intro ⟨i, hi, hmem, hsrc⟩
    exact ⟨hmem, hsrc ▸ hi⟩
  · intro ⟨hmem, hlt⟩
    exact ⟨e.src, hlt, hmem, rfl⟩

/-! ## Claim C2 -/

/-- **C2** (confirmed): after the temporal-feasibility adjustment pass
completes — and hence in the final graph, since the later phases read
but never write node times — every connection edge `in -> out`
satisfies `time(out) >= time(in) + escort_time(edge)`, also when its
endpoints are shared by several edges and were shifted or max-folded
several times.  Hypotheses: the sampled outbound departure times lie
(as all uniform-[0,24) draws do) at most 24, the mean wait parameter is
non-negative, and the standard-exponential draws are non-negative
(their support). -/
theorem C2_connection_feasibility {inp : GenInput} {g : GenOut}
    (hok : generate inp = .ok g)
    (hout : ∀ j, inp.outTime j ≤ 24)
    (hmean : 0 ≤ inp.mean_connecting_wait_time)
    (hX : ∀ i j, 0 ≤ inp.waitX i j) :
    ∀ e ∈ g.conn, g.tin e.src + e.esc ≤ g.tout e.tgt := by
  obtain ⟨extF, extB, conn, cd, stF, -, -, -, hC, hA, rfl⟩ := generate_ok hok
  intro e he
  have hfold := adjustM_ok hA
  have hmem := connM_ok_mem hC e he
  have hXnn : ∀ i j, 0 ≤ inp.mean_connecting_wait_time * inp.waitX i j :=
    fun i j => mul_nonneg hmean (hX i j)
  have heL : e ∈ nxOrder (inp.n_flights_in + (inp.kExtIn + 1)) (extF ++ extB ++ conn) :=
    mem_nxOrder.mpr ⟨List.mem_append.mpr (Or.inr he),
      lt_of_lt_of_le hmem.1 (Nat.le_add_right _ _)⟩
  show stF.tin e.src + e.esc ≤ stF.tout e.tgt
  rw [hfold]
  exact adjustFold_gap _ hXnn ⟨inp.inTime, inp.outTime⟩ hout _ e heL

/-- Witness for C2 at the concrete run `traceA`: its only connection
edge is `(in_1, out_1)` with escort time 0 and the final times satisfy
`tin 0 + 0 <= tout 0` (they are `-6` and `5`). -/
theorem C2_connection_feasibility_witness :
    (okOut (generate traceA)).tin 0 + 0 ≤ (okOut (generate traceA)).tout 0 := by
  have hok : generate traceA = .ok (okOut (generate traceA)) := by
    with_unfolding_all rfl
  have hout : ∀ j, traceA.outTime j ≤ 24 := by
    intro j
    show (if j = 0 then (1:ℚ) else 2) ≤ 24
    split <;> norm_num
  have hmean : (0:ℚ) ≤ traceA.mean_connecting_wait_time := by
    show (0:ℚ) ≤ 0.5
    norm_num
  have hX : ∀ i j, (0:ℚ) ≤ traceA.waitX i j := by
    intro i j
    show (0:ℚ) ≤ if i = 0 ∧ j = 1 then 60 else 0
    split <;> norm_num
  have hm : (⟨0, 0, 0, 1⟩ : PEdge) ∈ (okOut (generate traceA)).conn := by
    with_unfolding_all decide
  exact C2_connection_feasibility hok hout hmean hX ⟨0, 0, 0, 1⟩ hm

/-! ## Claim C1 -/

/-- **C1** (amended): after `generate` returns, every node's time is at
most 24.  The claimed invariant `0 <= t < 24` fails on the code: when
the adjustment's shift fires (`t_departure >= 24`), the new departure
time is `t_departure - (t_departure - 24) = 24` exactly, and the paired
arrival time drops by the same overage, possibly below 0; see
`C1_time_domain_cex`. -/
theorem C1_time_domain {inp : GenInput} {g : GenOut}
    (hok : generate inp = .ok g)
    (hin : ∀ i, 0 ≤ inp.inTime i ∧ inp.inTime i < 24)
    (hout : ∀ j, 0 ≤ inp.outTime j ∧ inp.outTime j < 24) :
    (∀ i < g.inN, g.tin i ≤ 24) ∧ (∀ j < g.outN, g.tout j ≤ 24) := by
  obtain ⟨extF, extB, conn, cd, stF, -, -, -, hC, hA, rfl⟩ := generate_ok hok
  have hfold := adjustM_ok hA
  constructor
  · intro i _
    show stF.tin i ≤ 24
    rw [hfold]
    exact le_trans (adjustFold_tin_anti _ _ _ i) (hin i).2.le
  · intro j _
    show stF.tout j ≤ 24
    rw [hfold]
    exact adjustFold_tout_le _ _ _ (fun j => (hout j).2.le) j

/-- Witness for the amended C1 at `traceA`. -/
theorem C1_time_domain_witness : (okOut (generate traceA)).tin 0 ≤ 24 := by
  have hok : generate traceA = .ok (okOut (generate traceA)) := by
    with_unfolding_all rfl
  have hin : ∀ i, 0 ≤ traceA.inTime i ∧ traceA.inTime i < 24 := by
    intro i
    show 0 ≤ (if i = 0 then (10:ℚ) else if i = 1 then 7 else 5) ∧
      (if i = 0 then (10:ℚ) else if i = 1 then 7 else 5) < 24
    split <;> norm_num
    split <;> norm_num
  have hout : ∀ j, 0 ≤ traceA.outTime j ∧ traceA.outTime j < 24 := by
    intro j
    show 0 ≤ (if j = 0 then (1:ℚ) else 2) ∧ (if j = 0 then (1:ℚ) else 2) < 24
    split <;> norm_num
  exact (C1_time_domain hok hin hout).1 0 (by with_unfolding_all decide)

/-- **C1** counterexample: in the run `traceA` every sampled time lies
in `[0, 24)`, yet after `generate` the outbound external node `out_2`
(index 1, a valid node since `outN = 2`) has time exactly 24, violating
`t < 24`, and the inbound flight `in_1` has time `-6`, violating
`0 <= t`. -/
theorem C1_time_domain_cex :
    (generate traceA).isOk = true ∧
    1 < (okOut (generate traceA)).outN ∧ 0 < (okOut (generate traceA)).inN ∧
    ¬ ((okOut (generate traceA)).tout 1 < 24) ∧
    ¬ (0 ≤ (okOut (generate traceA)).tin 0) := by
  with_unfolding_all decide

/-! ## Claim C4 -/

/-- **C4** (amended): the adjustment pass folds over every edge present
when it runs — external edges included, not just connection edges — so
only a node incident to no edge at all is guaranteed to keep its
sampled time; a node incident to k edges is written once per incident
edge.  The original claim (external nodes keep their times) fails, see
`C4_adjust_frame_cex`. -/
theorem C4_adjust_frame {inp : GenInput} {g : GenOut}
    (hok : generate inp = .ok g) :
    (∀ i, (∀ e ∈ g.extF ++ g.extB ++ g.conn, e.src ≠ i) → g.tin i = inp.inTime i) ∧
    (∀ j, (∀ e ∈ g.extF ++ g.extB ++ g.conn, e.tgt ≠ j) → g.tout j = inp.outTime j) := by
  obtain ⟨extF, extB, conn, cd, stF, -, -, -, hC, hA, rfl⟩ := generate_ok hok
  have hfold := adjustM_ok hA
  constructor
  · intro i hni
    show stF.tin i = inp.inTime i
    rw [hfold]
    exact adjustFold_tin_frame _ _ _ i (fun e he => hni e (mem_nxOrder.mp he).1)
  · intro j hnj
    show stF.tout j = inp.outTime j
    rw [hfold]
    exact adjustFold_tout_frame _ _ _ j (fun e he => hnj e (mem_nxOrder.mp he).1)

/-- Witness for the amended C4 at `traceA`: the inbound flight `in_2`
(index 1) is incident to no edge, and its time is untouched. -/
theorem C4_adjust_frame_witness :
    (okOut (generate traceA)).tin 1 = traceA.inTime 1 := by
  have hok : generate traceA = .ok (okOut (generate traceA)) := by
    with_unfolding_all rfl
  exact (C4_adjust_frame hok).1 1 (by with_unfolding_all decide)

/-- **C4** counterexample: in the run `traceA` the outbound node of
index 1 is an external node (`n_flights_out = 1 <= 1`), yet the
adjustment pass rewrote its time (from the sampled 2 to 24): the pass
does not restrict itself to connection edges, and external nodes do not
keep their times. -/
theorem C4_adjust_frame_cex :
    (generate traceA).isOk = true ∧
    (okOut (generate traceA)).n_flights_out ≤ 1 ∧
    1 < (okOut (generate traceA)).outN ∧
    (okOut (generate traceA)).tout 1 ≠ traceA.outTime 1 := by
  with_unfolding_all decide

/-! ## Claim C3 -/

theorem upd_self (f : ℕ → ℚ) (i : ℕ) : upd f i (f i) = f := by
  funext j
  rw [upd_apply]
  split
  · next h => rw [h]
  · rfl

/-- When the processed edge triggers no `>= 24` shift, the loop body is
a pure max-update of the target time and leaves all inbound times
unchanged. -/
theorem adjustStep_noshift (X : ℕ → ℕ → ℚ) (st : AdjState) (e : PEdge)
    (h1 : st.tout e.tgt < 24) (h2 : st.tin e.src + e.esc + X e.src e.tgt < 24) :
    adjustStep X st e =
      ⟨st.tin, upd st.tout e.tgt
        (max (st.tout e.tgt) (st.tin e.src + e.esc + X e.src e.tgt))⟩ := by
  unfold adjustStep
  rw [if_neg (not_le.mpr (max_lt h1 h2)), upd_self]

/-- The no-shift hypothesis survives one loop iteration. -/
theorem adjustStep_noshift_preserve (X : ℕ → ℕ → ℚ) (st : AdjState) (e : PEdge)
    (l : List PEdge)
    (h : ∀ a ∈ e :: l, st.tout a.tgt < 24 ∧ st.tin a.src + a.esc + X a.src a.tgt < 24) :
    ∀ a ∈ l, (adjustStep X st e).tout a.tgt < 24 ∧
      (adjustStep X st e).tin a.src + a.esc + X a.src a.tgt < 24 := by
  intro a ha
  have he := h e (List.mem_cons_self e l)
  have haa := h a (List.mem_cons_of_mem e ha)
  rw [adjustStep_noshift X st e he.1 he.2]
  refine ⟨?_, haa.2⟩
  show upd st.tout e.tgt _ a.tgt < 24
  rw [upd_apply]
  split
  · exact max_lt he.1 he.2
  · exact haa.1

/-- Under the no-shift hypothesis the pass never changes an inbound
time. -/
theorem adjustFold_noshift_tin (X : ℕ → ℕ → ℚ) (st : AdjState) (l : List PEdge)
    (h : ∀ a ∈ l, st.tout a.tgt < 24 ∧ st.tin a.src + a.esc + X a.src a.tgt < 24) :
    (adjustFold X st l).tin = st.tin := by
  induction l generalizing st with
  | nil => rfl
  | cons e l ih =>
    have he := h e (List.mem_cons_self e l)
    calc (adjustFold X st (e :: l)).tin
        = (adjustFold X (adjustStep X st e) l).tin := rfl
      _ = (adjustStep X st e).tin := ih _ (adjustStep_noshift_preserve X st e l h)
      _ = st.tin := by rw [adjustStep_noshift X st e he.1 he.2]

/-- Under the no-shift hypothesis the final time of an outbound node is
the max-fold, over the edges pointing at it, of candidates computed
from the (unchanged) inbound times. -/
theorem adjustFold_noshift_tout (X : ℕ → ℕ → ℚ) (st : AdjState) (l : List PEdge)
    (h : ∀ a ∈ l, st.tout a.tgt < 24 ∧ st.tin a.src + a.esc + X a.src a.tgt < 24)
    (j : ℕ) :
    (adjustFold X st l).tout j =
      l.foldl (fun a e =>
        if e.tgt = j then max a (st.tin e.src + e.esc + X e.src e.tgt) else a)
        (st.tout j) := by
  induction l generalizing st with
  | nil => rfl
  | cons e l ih =>
    have he := h e (List.mem_cons_self e l)
    have hstep := adjustStep_noshift X st e he.1 he.2
    have htrans := adjustStep_noshift_preserve X st e l h
    calc (adjustFold X st (e :: l)).tout j
        = (adjustFold X (adjustStep X st e) l).tout j := rfl
      _ = l.foldl (fun a a2 =>
            if a2.tgt = j then
              max a ((adjustStep X st e).tin a2.src + a2.esc + X a2.src a2.tgt)
            else a) ((adjustStep X st e).tout j) := ih _ htrans
      _ = _ := by
          rw [hstep]
          show l.foldl _ (upd st.tout e.tgt _ j) = _
          rw [List.foldl_cons, upd_apply]
          rcases eq_or_ne j e.tgt with hj | hj
          · rw [if_pos hj, if_pos hj.symm, hj]
          · rw [if_neg hj, if_neg (fun hh => hj hh.symm)]

/-- A per-target max-fold is invariant under permutation of the edge
list. -/
theorem foldl_max_perm (g : PEdge → ℚ) (j : ℕ) {l1 l2 : List PEdge}
    (p : l1.Perm l2) :
    ∀ b : ℚ, l1.foldl (fun a e => if e.tgt = j then max a (g e) else a) b =
      l2.foldl (fun a e => if e.tgt = j then max a (g e) else a) b := by
  induction p with
  | nil => intro b; rfl
  | cons x p ih =>
    intro b
    simp only [List.foldl_cons]
    exact ih _
  | swap x y l =>
    intro b
    simp only [List.foldl_cons]
    congr 1
    by_cases hx : x.tgt = j <;> by_cases hy : y.tgt = j <;>
      simp [hx, hy, sup_right_comm]
  | trans p1 p2 ih1 ih2 =>
    intro b
    rw [ih1 b, ih2 b]

/-- **C3** (amended): the adjustment pass is order-independent
provided no processed edge triggers the `>= 24` shift, i.e. when every
initial outbound time and every candidate departure stays below 24;
then inbound times are untouched and each outbound time is a
commutative max-fold of its candidates.  The unconditional claim is
false: the shift writes the inbound time, which later candidates read,
so processing order changes the result — see
`C3_order_independence_cex`. -/
theorem C3_order_independence {X : ℕ → ℕ → ℚ} {st : AdjState} {l1 l2 : List PEdge}
    (p : l1.Perm l2)
    (h : ∀ a ∈ l1, st.tout a.tgt < 24 ∧ st.tin a.src + a.esc + X a.src a.tgt < 24) :
    (∀ i, (adjustFold X st l1).tin i = (adjustFold X st l2).tin i) ∧
    (∀ j, (adjustFold X st l1).tout j = (adjustFold X st l2).tout j) := by
  have h2 : ∀ a ∈ l2, st.tout a.tgt < 24 ∧ st.tin a.src + a.esc + X a.src a.tgt < 24 :=
    fun a ha => h a (p.mem_iff.mpr ha)
  constructor
  · intro i
    rw [adjustFold_noshift_tin X st l1 h, adjustFold_noshift_tin X st l2 h2]
  · intro j
    rw [adjustFold_noshift_tout X st l1 h j, adjustFold_noshift_tout X st l2 h2 j]
    exact foldl_max_perm _ j p _

/-- Witness for the amended C3: a two-edge no-shift instance processed
in both orders gives the same result. -/
theorem C3_order_independence_witness :
    (adjustFold c3XW c3stW [c3e1, c3e2]).tout 0 =
      (adjustFold c3XW c3stW [c3e2, c3e1]).tout 0 := by
  have p : ([c3e1, c3e2] : List PEdge).Perm [c3e2, c3e1] := List.Perm.swap c3e2 c3e1 []
  have h : ∀ a ∈ ([c3e1, c3e2] : List PEdge),
      c3stW.tout a.tgt < 24 ∧ c3stW.tin a.src + a.esc + c3XW a.src a.tgt < 24 := by
    with_unfolding_all decide
  exact (C3_order_independence p h).2 0

/-- **C3** counterexample: the edge lists `[c3e1, c3e2]` and
`[c3e2, c3e1]` are permutations of each other and carry the same
per-edge offsets `c3X`, yet the pass gives `out_2` the final time 22 in
the first order and 24 in the second: processing `c3e1` first fires the
`>= 24` shift and lowers `in_1`'s time before `c3e2` reads it. -/
theorem C3_order_independence_cex :
    ([c3e1, c3e2] : List PEdge).Perm [c3e2, c3e1] ∧
    ¬ ((adjustFold c3X c3st [c3e1, c3e2]).tout 1 =
        (adjustFold c3X c3st [c3e2, c3e1]).tout 1) := by
  refine ⟨List.Perm.swap c3e2 c3e1 [], ?_⟩
  with_unfolding_all decide

/-! ## Claim C5 -/

theorem mem_pairList {m n : ℕ} {ij : ℕ × ℕ} :
    ij ∈ (List.range m).flatMap (fun i => (List.range n).map (fun j => (i, j))) ↔
      ij.1 < m ∧ ij.2 < n := by
  cases ij with
  | mk i j =>
    constructor
    · intro h
      simp only [List.mem_flatMap, List.mem_map, List.mem_range] at h
      obtain ⟨a, ha, b, hb, hab⟩ := h
      obtain ⟨rfl, rfl⟩ := Prod.mk.injEq .. |>.mp hab.symm
      exact ⟨ha, hb⟩
    · intro ⟨hi, hj⟩
      simp only [List.mem_flatMap, List.mem_map, List.mem_range]
      exact ⟨i, hi, j, hj, rfl⟩

theorem mem_reuseList {inp : GenInput} {nEI nEO : ℕ} {tinF toutF : ℕ → ℚ} {j i : ℕ} :
    (j, i) ∈ reuseList inp nEI nEO tinF toutF ↔
      i < inp.n_flights_in + nEI ∧ j < inp.n_flights_out + nEO ∧
      toutF j + inp.dist (outLocF inp j) (inLocF inp i) / PACE < tinF i := by
  unfold reuseList
  rw [List.mem_filterMap]
  constructor
  · intro ⟨ij, hij, hsome⟩
    have hb := mem_pairList.mp hij
    split at hsome
    · next hcond =>
      obtain ⟨h1, h2⟩ := Prod.mk.injEq .. |>.mp (Option.some.injEq _ _ |>.mp hsome)
      subst h1
      subst h2
      exact ⟨hb.1, hb.2, hcond⟩
    · exact absurd hsome (by simp)
  · intro ⟨hi, hj, hcond⟩
    refine ⟨(i, j), mem_pairList.mpr ⟨hi, hj⟩, ?_⟩
    rw [if_pos hcond]

/-- **C5** (confirmed): in the final graph a reuse edge `(out j, in i)`
exists, over the full node sets including externals, iff
`arrival_time(in i) > departure_time(out j) + escort_time`, with the
escort time the topology shortest-path distance from the outbound
node's location to the inbound node's location divided by `PACE`; and
every `out -> in` edge of the graph carries only `weight = -1`, no
`t_escort` and no `capacity` attribute. -/
theorem C5_reuse_iff {inp : GenInput} {g : GenOut} (hok : generate inp = .ok g) :
    (∀ i < g.inN, ∀ j < g.outN,
      ((j, i) ∈ g.reuse ↔
        g.tout j + inp.dist (outLocF inp j) (inLocF inp i) / PACE < g.tin i)) ∧
    (∀ q ∈ allEdges g, (∃ a b, q.1 = NodeId.out a ∧ q.2.1 = NodeId.inn b) →
      q.2.2 = ⟨none, none, -1⟩) := by
  constructor
  · obtain ⟨extF, extB, conn, cd, stF, -, -, -, hC, hA, rfl⟩ := generate_ok hok
    intro i hi j hj
    constructor
    · intro hm
      exact (mem_reuseList.mp hm).2.2
    · intro hcond
      exact mem_reuseList.mpr ⟨hi, hj, hcond⟩
  · intro q hq hout
    obtain ⟨a, b, hsrc, htgt⟩ := hout
    simp only [allEdges, List.mem_append, List.mem_map, List.mem_singleton] at hq
    rcases hq with ((((((hq | hq) | hq) | hq) | hq) | hq) | hq)
    · obtain ⟨e, he, rfl⟩ := hq
      exact absurd hsrc (by simp)
    · obtain ⟨e, he, rfl⟩ := hq
      exact absurd hsrc (by simp)
    · obtain ⟨e, he, rfl⟩ := hq
      exact absurd hsrc (by simp)
    · obtain ⟨p, hp, rfl⟩ := hq
      rfl
    · obtain ⟨k, hk, rfl⟩ := hq
      exact absurd hsrc (by simp)
    · obtain ⟨k, hk, rfl⟩ := hq
      exact absurd htgt (by simp)
    · subst hq
      exact absurd hsrc (by simp)

/-- Witness for C5 at `traceA`: the inbound flight `in_2` (time 7) can
reuse the wheelchair freed by the outbound flight `out_1` (time 5,
escort 0), and the reuse edge `(out_1, in_2)` is indeed present. -/
theorem C5_reuse_iff_witness :
    ((0 : ℕ), (1 : ℕ)) ∈ (okOut (generate traceA)).reuse := by
  have hok : generate traceA = .ok (okOut (generate traceA)) := by
    with_unfolding_all rfl
  refine ((C5_reuse_iff hok).1 1 ?_ 0 ?_).mpr ?_
  · with_unfolding_all decide
  · with_unfolding_all decide
  · with_unfolding_all decide

/-! ## Claim C7 -/

/-- **C7** (confirmed): every connection edge of the final graph has
demand (`capacity`) at least 1, and none joins two flights whose
sampled gates coincide: `_generate_forward_connections` skips
same-location pairs before sampling and pairs whose sampled demand
`geometric(p_geom_connect) - 1` is zero. -/
theorem C7_demand_sparsity {inp : GenInput} {g : GenOut}
    (hok : generate inp = .ok g) :
    ∀ e ∈ g.conn, 1 ≤ e.cap ∧ inLocF inp e.src ≠ outLocF inp e.tgt := by
  obtain ⟨extF, extB, conn, cd, stF, -, -, -, hC, hA, rfl⟩ := generate_ok hok
  intro e he
  have h := connM_ok_mem hC e he
  exact ⟨h.2.2.1, h.2.2.2.1⟩

/-- Witness for C7 at `traceA`: its single connection edge. -/
theorem C7_demand_sparsity_witness :
    1 ≤ (⟨0, 0, 0, 1⟩ : PEdge).cap ∧
      inLocF traceA (⟨0, 0, 0, 1⟩ : PEdge).src ≠
        outLocF traceA (⟨0, 0, 0, 1⟩ : PEdge).tgt := by
  have hok : generate traceA = .ok (okOut (generate traceA)) := by
    with_unfolding_all rfl
  exact C7_demand_sparsity hok ⟨0, 0, 0, 1⟩ (by with_unfolding_all decide)

/-! ## Claim C8 -/

/-- **C8** (amended): `generate` performs no up-front validation.  If
`p_geom_external` lies outside `(0, 1]` the run does fail — at its very
first sampling call, the external-count draw — and no graph is
produced.  But other invalid parameters are not rejected before
sampling: `mean_connecting_wait_time = 0` is accepted outright and a
complete graph is returned (see `C8_validation_cex`), and an invalid
`p_geom_connect` or a negative mean surfaces only when its sampling
primitive is first consumed, after the node and external phases have
already sampled. -/
theorem C8_validation {inp : GenInput}
    (hp : ¬ (0 < inp.p_geom_external ∧ inp.p_geom_external ≤ 1)) :
    generate inp = .error "geometric: p out of range" := by
  unfold generate
  rw [show npGeometric inp.p_geom_external inp.kExtIn = .error "geometric: p out of range"
    from by unfold npGeometric; rw [if_neg hp]]
  rfl

/-- Witness for the amended C8: `traceC` has `p_geom_external = 2`. -/
theorem C8_validation_witness :
    generate traceC = .error "geometric: p out of range" :=
  C8_validation (by with_unfolding_all decide)

/-- **C8** counterexample: `traceB` has the invalid (non-positive)
parameter `mean_connecting_wait_time = 0`, yet `generate` does not
fail at all: numpy's `exponential` accepts a zero scale, so a complete
graph is produced, refuting "fails with a fatal precondition error
before any random sampling is performed". -/
theorem C8_validation_cex :
    traceB.mean_connecting_wait_time ≤ 0 ∧ (generate traceB).isOk = true := by
  with_unfolding_all decide

/-! ## Claim C9 -/

/-- **C9** (confirmed): after `generate` returns, `total_demand` equals
the number of external nodes created (inbound plus outbound, each
contributing exactly 1) plus the sum of the sampled demands over all
connection edges of the graph. -/
theorem C9_total_demand {inp : GenInput} {g : GenOut}
    (hok : generate inp = .ok g) :
    g.total_demand = g.nExtIn + g.nExtOut + (g.conn.map PEdge.cap).sum := by
  obtain ⟨extF, extB, conn, cd, stF, -, -, -, hC, hA, rfl⟩ := generate_ok hok
  show inp.kExtIn + 1 + (inp.kExtOut + 1) + cd
    = inp.kExtIn + 1 + (inp.kExtOut + 1) + (conn.map PEdge.cap).sum
  rw [connM_ok_sum hC]

/-- Witness for C9 at `traceA`: `3 = 1 + 1 + 1`. -/
theorem C9_total_demand_witness :
    (okOut (generate traceA)).total_demand =
      (okOut (generate traceA)).nExtIn + (okOut (generate traceA)).nExtOut +
        ((okOut (generate traceA)).conn.map PEdge.cap).sum :=
  @C9_total_demand traceA (okOut (generate traceA)) (by with_unfolding_all rfl)

/-! ## Claim C10 -/

/-- **C10** (confirmed): the numpy geometric draw has support starting
at 1, so every successful run creates at least one inbound and one
outbound external node, and `total_demand` is at least 2. -/
theorem C10_externals_nonempty {inp : GenInput} {g : GenOut}
    (hok : generate inp = .ok g) :
    1 ≤ g.nExtIn ∧ 1 ≤ g.nExtOut ∧ 2 ≤ g.total_demand := by
  obtain ⟨extF, extB, conn, cd, stF, -, -, -, hC, hA, rfl⟩ := generate_ok hok
  refine ⟨?_, ?_, ?_⟩
  · show 1 ≤ inp.kExtIn + 1
    omega
  · show 1 ≤ inp.kExtOut + 1
    omega
  · show 2 ≤ inp.kExtIn + 1 + (inp.kExtOut + 1) + cd
    omega

/-- Witness for C10 at `traceA`. -/
theorem C10_externals_nonempty_witness :
    1 ≤ (okOut (generate traceA)).nExtIn ∧ 1 ≤ (okOut (generate traceA)).nExtOut ∧
      2 ≤ (okOut (generate traceA)).total_demand :=
  @C10_externals_nonempty traceA (okOut (generate traceA)) (by with_unfolding_all rfl)

/-! ## Claim C6 -/

theorem filter_map_nil {α : Type} (l : List α) (f : α → NodeId × NodeId × Attrs)
    (p : NodeId × NodeId × Attrs → Bool) (h : ∀ a, p (f a) = false) :
    (l.map f).filter p = [] := by
  rw [List.filter_map]
  have h0 : l.filter (p ∘ f) = [] :=
    List.filter_eq_nil_iff.mpr (fun a _ => by simp [Function.comp, h a])
  rw [h0]
  rfl

theorem filter_range_decide (n i : ℕ) (h : i < n) :
    (List.range n).filter (fun k => decide (k = i)) = [i] := by
  induction n with
  | zero => omega
  | succ n ih =>
    rw [List.range_succ, List.filter_append]
    rcases Nat.lt_succ_iff_lt_or_eq.mp h with h' | rfl
    · rw [ih h']
      have hn : ([n].filter (fun k => decide (k = i))) = [] := by
        rw [List.filter_eq_nil_iff]
        intro a ha
        obtain rfl := List.mem_singleton.mp ha
        simp only [decide_eq_true_eq]
        omega
      rw [hn, List.append_nil]
    · have h0 : (List.range i).filter (fun k => decide (k = i)) = [] := by
        rw [List.filter_eq_nil_iff]
        intro a ha
        have := List.mem_range.mp ha
        simp only [decide_eq_true_eq]
        omega
      rw [h0]
      simp

/-- **C6** (confirmed): in the graph returned by `generate` the edges
touching the synthetic source and sink are exactly the wiring that
`_add_s_and_t` appends after all other edges: for every inbound node
`i` the graph has exactly one edge from `s` to it, namely
`(s, in_i, weight 0)`; for every outbound node `j` exactly one edge to
`t`, namely `(out_j, t, weight 0)`; and exactly one `t -> s` edge, with
weight 0 and no other attribute.  `_add_s_and_t` is the last phase of
`generate` and writes no node time and no edge demand. -/
theorem C6_wiring {inp : GenInput} {g : GenOut} (hok : generate inp = .ok g) :
    (∀ i < g.inN,
      (allEdges g).filter (fun q => decide (q.1 = NodeId.s ∧ q.2.1 = NodeId.inn i)) =
        [(NodeId.s, NodeId.inn i, ⟨none, none, 0⟩)]) ∧
    (∀ j < g.outN,
      (allEdges g).filter (fun q => decide (q.1 = NodeId.out j ∧ q.2.1 = NodeId.t)) =
        [(NodeId.out j, NodeId.t, ⟨none, none, 0⟩)]) ∧
    ((allEdges g).filter (fun q => decide (q.1 = NodeId.t ∧ q.2.1 = NodeId.s)) =
      [(NodeId.t, NodeId.s, ⟨none, none, 0⟩)]) := by
  refine ⟨?_, ?_, ?_⟩
  · intro i hi
    have hpe : ∀ (l : List PEdge),
        (l.map (fun e => ((NodeId.inn e.src, NodeId.out e.tgt,
          (⟨some e.esc, some e.cap, -1⟩ : Attrs)) : NodeId × NodeId × Attrs))).filter
          (fun q => decide (q.1 = NodeId.s ∧ q.2.1 = NodeId.inn i)) = [] :=
      fun l => filter_map_nil _ _ _ (fun e => by simp)
    have hre : (g.reuse.map (fun p => ((NodeId.out p.1, NodeId.inn p.2,
          (⟨none, none, -1⟩ : Attrs)) : NodeId × NodeId × Attrs))).filter
          (fun q => decide (q.1 = NodeId.s ∧ q.2.1 = NodeId.inn i)) = [] :=
      filter_map_nil _ _ _ (fun p => by simp)
    have hs : ((List.range g.inN).map (fun k => ((NodeId.s, NodeId.inn k,
          (⟨none, none, 0⟩ : Attrs)) : NodeId × NodeId × Attrs))).filter
          (fun q => decide (q.1 = NodeId.s ∧ q.2.1 = NodeId.inn i)) =
          [(NodeId.s, NodeId.inn i, ⟨none, none, 0⟩)] := by
      rw [List.filter_map]
      have hp : ((fun q => decide (q.1 = NodeId.s ∧ q.2.1 = NodeId.inn i)) ∘
          (fun k => ((NodeId.s, NodeId.inn k,
            (⟨none, none, 0⟩ : Attrs)) : NodeId × NodeId × Attrs))) =
          fun k => decide (k = i) := by
        funext k
        simp [Function.comp]
      rw [hp, filter_range_decide g.inN i hi]
      rfl
    have ht : ((List.range g.outN).map (fun k => ((NodeId.out k, NodeId.t,
          (⟨none, none, 0⟩ : Attrs)) : NodeId × NodeId × Attrs))).filter
          (fun q => decide (q.1 = NodeId.s ∧ q.2.1 = NodeId.inn i)) = [] :=
      filter_map_nil _ _ _ (fun k => by simp)
    show ((g.extF.map _ ++ g.extB.map _ ++ g.conn.map _ ++ g.reuse.map _ ++
      (List.range g.inN).map _ ++ (List.range g.outN).map _ ++ _).filter _) = _
    simp only [List.filter_append, hpe, hre, hs, ht, List.nil_append, List.append_nil]
    rfl
  · intro j hj
    have hpe : ∀ (l : List PEdge),
        (l.map (fun e => ((NodeId.inn e.src, NodeId.out e.tgt,
          (⟨some e.esc, some e.cap, -1⟩ : Attrs)) : NodeId × NodeId × Attrs))).filter
          (fun q => decide (q.1 = NodeId.out j ∧ q.2.1 = NodeId.t)) = [] :=
      fun l => filter_map_nil _ _ _ (fun e => by simp)
    have hre : (g.reuse.map (fun p => ((NodeId.out p.1, NodeId.inn p.2,
          (⟨none, none, -1⟩ : Attrs)) : NodeId × NodeId × Attrs))).filter
          (fun q => decide (q.1 = NodeId.out j ∧ q.2.1 = NodeId.t)) = [] :=
      filter_map_nil _ _ _ (fun p => by simp)
    have hs : ((List.range g.inN).map (fun k => ((NodeId.s, NodeId.inn k,
          (⟨none, none, 0⟩ : Attrs)) : NodeId × NodeId × Attrs))).filter
          (fun q => decide (q.1 = NodeId.out j ∧ q.2.1 = NodeId.t)) = [] :=
      filter_map_nil _ _ _ (fun k => by simp)
    have ht : ((List.range g.outN).map (fun k => ((NodeId.out k, NodeId.t,
          (⟨none, none, 0⟩ : Attrs)) : NodeId × NodeId × Attrs))).filter
          (fun q => decide (q.1 = NodeId.out j ∧ q.2.1 = NodeId.t)) =
          [(NodeId.out j, NodeId.t, ⟨none, none, 0⟩)] := by
      rw [List.filter_map]
      have hp : ((fun q => decide (q.1 = NodeId.out j ∧ q.2.1 = NodeId.t)) ∘
          (fun k => ((NodeId.out k, NodeId.t,
            (⟨none, none, 0⟩ : Attrs)) : NodeId × NodeId × Attrs))) =
          fun k => decide (k = j) := by
        funext k
        simp [Function.comp]
      rw [hp, filter_range_decide g.outN j hj]
      rfl
    show ((g.extF.map _ ++ g.extB.map _ ++ g.conn.map _ ++ g.reuse.map _ ++
      (List.range g.inN).map _ ++ (List.range g.outN).map _ ++ _).filter _) = _
    simp only [List.filter_append, hpe, hre, hs, ht, List.nil_append, List.append_nil]
    rfl
  · have hpe : ∀ (l : List PEdge),
        (l.map (fun e => ((NodeId.inn e.src, NodeId.out e.tgt,
          (⟨some e.esc, some e.cap, -1⟩ : Attrs)) : NodeId × NodeId × Attrs))).filter
          (fun q => decide (q.1 = NodeId.t ∧ q.2.1 = NodeId.s)) = [] :=
      fun l => filter_map_nil _ _ _ (fun e => by simp)
    have hre : (g.reuse.map (fun p => ((NodeId.out p.1, NodeId.inn p.2,
          (⟨none, none, -1⟩ : Attrs)) : NodeId × NodeId × Attrs))).filter
          (fun q => decide (q.1 = NodeId.t ∧ q.2.1 = NodeId.s)) = [] :=
      filter_map_nil _ _ _ (fun p => by simp)
    have hs : ((List.range g.inN).map (fun k => ((NodeId.s, NodeId.inn k,
          (⟨none, none, 0⟩ : Attrs)) : NodeId × NodeId × Attrs))).filter
          (fun q => decide (q.1 = NodeId.t ∧ q.2.1 = NodeId.s)) = [] :=
      filter_map_nil _ _ _ (fun k => by simp)
    have ht : ((List.range g.outN).map (fun k => ((NodeId.out k, NodeId.t,
          (⟨none, none, 0⟩ : Attrs)) : NodeId × NodeId × Attrs))).filter
          (fun q => decide (q.1 = NodeId.t ∧ q.2.1 = NodeId.s)) = [] :=
      filter_map_nil _ _ _ (fun k => by simp)
    show ((g.extF.map _ ++ g.extB.map _ ++ g.conn.map _ ++ g.reuse.map _ ++
      (List.range g.inN).map _ ++ (List.range g.outN).map _ ++ _).filter _) = _
    simp only [List.filter_append, hpe, hre, hs, ht, List.nil_append, List.append_nil]
    rfl

/-- Witness for C6 at `traceA`: the source-side wiring of `in_1`. -/
theorem C6_wiring_witness :
    (allEdges (okOut (generate traceA))).filter
      (fun q => decide (q.1 = NodeId.s ∧ q.2.1 = NodeId.inn 0)) =
      [(NodeId.s, NodeId.inn 0, ⟨none, none, 0⟩)] := by
  have hok : generate traceA = .ok (okOut (generate traceA)) := by
    with_unfolding_all rfl
  exact (C6_wiring hok).1 0 (by with_unfolding_all decide)

end FSG
